import Mathlib

/-!
Verification development for the chain-file liftover index
(`liftover.py`): a parser turning UCSC-chain-format lines into an
in-memory index of gapless alignment blocks, and a bisection-based
query translating a coordinate from one genome to the other.

The embedding mirrors the Python source.  Lines are lists of
characters; Python's `str.split()`, `str.rstrip()` and `int()` are
modelled by `pySplit`, `pyRstrip` and `pyInt`.  Python's mutable,
aliased objects (the `SeqPair` instances and the shared `set` objects
of the `defaultdict`) are modelled with an explicit heap: the
`ChainIndex` structure holds a list of `SeqPair` objects (addressed by
position), a list of sets of pair addresses, and the dictionary as an
insertion-ordered association list from sequence name to set address.
Fallible operations return `Except Err`; `Err` distinguishes the
`ValueError` / `IndexError` / `NameError` exceptions the Python code
can raise.
-/

namespace Liftover

/-- Python whitespace characters, as used by `str.split()` with no
separator and by `str.rstrip()`. -/
def pyIsSpace (c : Char) : Bool :=
  c = ' ' || c = '\t' || c = '\n' || c = '\r' || c = '\x0b' || c = '\x0c'

/-- Python `str.rstrip()`: remove trailing whitespace. -/
def pyRstrip (cs : List Char) : List Char :=
  (cs.reverse.dropWhile pyIsSpace).reverse

/-- Python `str.strip()`: remove leading and trailing whitespace
(used by `int()` on strings). -/
def pyStrip (cs : List Char) : List Char :=
  ((cs.dropWhile pyIsSpace).reverse.dropWhile pyIsSpace).reverse

/-- ASCII decimal digit test. -/
def isDigitCh (c : Char) : Bool :=
  '0' ≤ c && c ≤ '9'

/-- Numeric value of a string of decimal digits. -/
def digitsVal (ds : List Char) : Nat :=
  ds.foldl (fun a c => 10 * a + (c.toNat - 48)) 0

/-- Exceptions the Python code can raise while parsing or querying:
`valueError` from `int()` or tuple unpacking, `indexError` from an
out-of-range subscript, `nameError` from using the variable `pair`
before any header line bound it. -/
inductive Err where
  | valueError
  | indexError
  | nameError
deriving DecidableEq, Repr

/-- Digit-string payload of Python `int()` (after stripping whitespace
and an optional sign). -/
def pyIntCore (ds : List Char) : Except Err Int :=
  match ds with
  | [] => .error .valueError
  | _ => if ds.all isDigitCh then .ok (digitsVal ds) else .error .valueError

/-- Python `int(s)` on a string: optional surrounding whitespace, an
optional sign, then decimal digits.  (Underscore digit grouping and
non-ASCII digits are not modelled; no input in this development uses
them.) -/
def pyInt (cs : List Char) : Except Err Int :=
  match pyStrip cs with
  | '+' :: ds => pyIntCore ds
  | '-' :: ds => (pyIntCore ds).map Neg.neg
  | ds => pyIntCore ds

/-- Worker for `pySplit`, accumulating the current word reversed. -/
def pyWordsAux : List Char → List Char → List (List Char)
  | [], cur => if cur = [] then [] else [cur.reverse]
  | c :: cs, cur =>
    if pyIsSpace c then
      if cur = [] then pyWordsAux cs [] else cur.reverse :: pyWordsAux cs []
    else pyWordsAux cs (c :: cur)

/-- Python `str.split()` with no separator: maximal runs of
non-whitespace characters. -/
def pySplit (cs : List Char) : List (List Char) :=
  pyWordsAux cs []

/-- Python `line.startswith('chain')`. -/
def pyStartsChain (cs : List Char) : Bool :=
  cs.take 5 = ['c', 'h', 'a', 'i', 'n']

/-- Python `items[i]`: `IndexError` when out of range. -/
def pyIndex (l : List (List Char)) (i : Nat) : Except Err (List Char) :=
  match l.get? i with
  | some x => .ok x
  | none => .error .indexError

/-- `GapLessBlock`: coordinates of an alignment run without gaps.
`s1`/`e1` are start/end in the first genome, `s2`/`e2` in the
second. -/
structure GapLessBlock where
  s1 : Int
  e1 : Int
  s2 : Int
  e2 : Int
deriving DecidableEq, Repr, Inhabited

/-- `SeqPair`: the list of `GapLessBlock` associated with a pair of
sequence names, plus the strand of each side. -/
structure SeqPair where
  seqname1 : String
  seqname2 : String
  strand1 : String
  strand2 : String
  blocks : List GapLessBlock
deriving DecidableEq, Repr, Inhabited

/-- `ChainIndex`: the `seqnames` dictionary of the Python class,
with Python's object graph made explicit.
`pairs` is the heap of `SeqPair` objects (a pair's address is its
position; parsing only ever appends).  `sets` is the heap of the
`set` objects held as dictionary values, each a list of pair
addresses in insertion order.  `seqnames` is the `defaultdict(set)`
as an insertion-ordered association list from sequence name to set
address; distinct names mapped to the same address model Python's
aliasing of one shared `set` object. -/
structure ChainIndex where
  pairs : List SeqPair
  sets : List (List Nat)
  seqnames : List (String × Nat)
deriving DecidableEq, Repr, Inhabited

/-- Dictionary lookup (no default): the value bound to `k`, if any
(the first binding in insertion order; `bindName` keeps keys
unique). -/
def lookupName : List (String × Nat) → String → Option Nat
  | [], _ => none
  | e :: d, k => if e.1 = k then some e.2 else lookupName d k

/-- Python dict assignment `d[k] = v`: overwrite in place when the key
exists, append a new binding otherwise. -/
def bindName (d : List (String × Nat)) (k : String) (v : Nat) : List (String × Nat) :=
  if d.any (fun e => e.1 = k) then
    d.map (fun e => if e.1 = k then (k, v) else e)
  else d ++ [(k, v)]

/-- `defaultdict(set)` subscript access `cidx.seqnames[k]`: return the
address of the bound set, or bind `k` to a freshly allocated empty set
and return its address.  This is the one place where a *read* of the
index mutates it. -/
def dictGetDefault (cidx : ChainIndex) (k : String) : Nat × ChainIndex :=
  match lookupName cidx.seqnames k with
  | some sid => (sid, cidx)
  | none =>
    (cidx.sets.length,
     { cidx with
       sets := cidx.sets ++ [[]],
       seqnames := cidx.seqnames ++ [(k, cidx.sets.length)] })

/-- Python `set.add`: append if absent (pair addresses are unique, so
list order models insertion order). -/
def pySetAdd (s : List Nat) (x : Nat) : List Nat :=
  if x ∈ s then s else s ++ [x]

/-- Add pair address `x` to the set stored at address `sid`. -/
def setAdd (sets : List (List Nat)) (sid x : Nat) : List (List Nat) :=
  sets.set sid (pySetAdd (sets.getD sid []) x)

/-- Append a block to the `SeqPair` object at address `pid`
(the mutation performed by `pair.append(...)`). -/
def appendBlock (pairs : List SeqPair) (pid : Nat) (b : GapLessBlock) : List SeqPair :=
  pairs.set pid
    (let p := pairs.getD pid default
     { p with blocks := p.blocks ++ [b] })

/-- Parser state: the index under construction, and — when a header
line has been seen — the address of the current `SeqPair` together
with the running cursors `s1`, `s2`.  `none` models the Python
variables `pair` unbound and `s1 = s2 = nan`. -/
structure PState where
  cidx : ChainIndex
  cur : Option (Nat × Int × Int)
deriving DecidableEq, Repr, Inhabited

/-- Processing of a `chain` header line: create a new `SeqPair` from
tokens 2, 7, 4, 9; register it under token 2 via the defaultdict and
alias token 7 to the same set object; reset the cursors from tokens 5
and 10.  Token accesses and `int()` conversions fail exactly where
the Python expressions would. -/
def processHeader (st : PState) (toks : List (List Char)) : Except Err PState := do
  let nA ← pyIndex toks 2
  let nB ← pyIndex toks 7
  let sA ← pyIndex toks 4
  let sB ← pyIndex toks 9
  let pid := st.cidx.pairs.length
  let cidx1 := { st.cidx with
    pairs := st.cidx.pairs ++
      [{ seqname1 := String.mk nA, seqname2 := String.mk nB,
         strand1 := String.mk sA, strand2 := String.mk sB, blocks := [] }] }
  let (sid, cidx2) := dictGetDefault cidx1 (String.mk nA)
  let cidx3 := { cidx2 with sets := setAdd cidx2.sets sid pid }
  let cidx4 := { cidx3 with seqnames := bindName cidx3.seqnames (String.mk nB) sid }
  let t5 ← pyIndex toks 5
  let s1v ← pyInt t5
  let t10 ← pyIndex toks 10
  let s2v ← pyInt t10
  pure ⟨cidx4, some (pid, s1v, s2v)⟩

/-- Processing of a body line.  Three tokens are `size gapA gapB`; any
other token count falls back to `int(line.rstrip())` as the terminal
single-`size` form (`ValueError` if that fails).  With no current
pair, appending raises `NameError` — after `int(size)` has already
been evaluated, as in the Python expression order. -/
def processBody (st : PState) (toks : List (List Char)) (line : List Char) :
    Except Err PState :=
  match toks with
  | [a, b, c] => do
    let szv ← pyInt a
    match st.cur with
    | none => Except.error Err.nameError
    | some (pid, s1, s2) => do
      let e1 := s1 + szv
      let e2 := s2 + szv
      let pairs1 := appendBlock st.cidx.pairs pid ⟨s1, e1, s2, e2⟩
      let n1 ← pyInt b
      let n2 ← pyInt c
      pure ⟨{ st.cidx with pairs := pairs1 }, some (pid, e1 + n1 + 1, e2 + n2 + 1)⟩
  | _ => do
    let szv ← pyInt (pyRstrip line)
    match st.cur with
    | none => Except.error Err.nameError
    | some (pid, s1, s2) =>
      let e1 := s1 + szv
      let e2 := s2 + szv
      pure ⟨{ st.cidx with pairs := appendBlock st.cidx.pairs pid ⟨s1, e1, s2, e2⟩ },
            some (pid, e1 + 0 + 1, e2 + 0 + 1)⟩

/-- One iteration of the parsing loop: `line[0]` on an empty string is
an `IndexError`; comment and blank lines are skipped; `chain` lines
are headers; everything else is a body line. -/
def processLine (st : PState) (line : List Char) : Except Err PState :=
  if line = [] then Except.error Err.indexError
  else if line.headD ' ' = '#' ∨ pyRstrip line = [] then pure st
  else if pyStartsChain line then processHeader st (pySplit line)
  else processBody st (pySplit line) line

/-- The parsing loop over all input lines; an exception aborts the
whole construction. -/
def runLines : PState → List (List Char) → Except Err PState
  | st, [] => .ok st
  | st, l :: ls =>
    match processLine st l with
    | .error e => .error e
    | .ok st' => runLines st' ls

/-- `ChainIndex.construct_from_chain_file`: fold the parsing loop over
the lines starting from an empty index; the caller receives either
the finished index or the exception (never a partial index). -/
def construct_from_chain_file (lines : List String) : Except Err ChainIndex :=
  match runLines ⟨⟨[], [], []⟩, none⟩ (lines.map String.toList) with
  | .ok st => .ok st.cidx
  | .error e => .error e

/-- CPython's `bisect` loop, fuel-structured: while `lo < hi`, probe
`mid = (lo+hi)/2` and move `lo` past it when `pred mid` holds,
otherwise close `hi` down to it.  Any `fuel ≥ hi - lo` yields the
fixpoint. -/
def pyBisectAux (pred : Nat → Bool) : Nat → Nat → Nat → Nat
  | 0, lo, _ => lo
  | fuel + 1, lo, hi =>
    if lo < hi then
      let mid := (lo + hi) / 2
      if pred mid then pyBisectAux pred fuel (mid + 1) hi
      else pyBisectAux pred fuel lo mid
    else lo

/-- `bisect_left(blocks, x)`: because `GapLessBlock.__lt__` compares
`e1` to a number, the probe `blocks[mid] < x` is `blocks[mid].e1 < x`;
the result is the first position whose block has `e1 ≥ x` (on a list
sorted by `e1`). -/
def bisect_left (bs : List GapLessBlock) (x : Int) : Nat :=
  pyBisectAux (fun i => decide ((bs.getD i default).e1 < x)) bs.length 0 bs.length

/-- `bisect_right(blocks, x)`: the probe `x < blocks[mid]` resolves to
the reflected `blocks[mid].__gt__(x)`, i.e. `blocks[mid].e2 > x`; the
loop advances `lo` while `¬(e2 > x)`, i.e. while `e2 ≤ x`, landing on
the first position whose block has `e2 > x` (on a list sorted by
`e2`). -/
def bisect_right (bs : List GapLessBlock) (x : Int) : Nat :=
  pyBisectAux (fun i => decide ((bs.getD i default).e2 ≤ x)) bs.length 0 bs.length

/-- The `for pair in self.seqnames[seqname]` loop of `liftover`,
iterating over the pair addresses of the bound set.  The role-A
branch subscripts `blocks[i]` without a bound check (an `IndexError`
when `i = len(blocks)`); the role-B branch checks the bound and
`continue`s. -/
def liftoverLoop (pairs : List SeqPair) (seqname : String) (pos : Int) :
    List Nat → Except Err (Option (String × Int))
  | [] => .ok none
  | pid :: rest =>
    let pair := pairs.getD pid default
    if seqname = pair.seqname1 then
      match pair.blocks.get? (bisect_left pair.blocks pos) with
      | none => .error .indexError
      | some block =>
        if block.s1 ≤ pos ∧ pos ≤ block.e1 then
          if pair.strand1 = pair.strand2 then
            .ok (some (pair.seqname2, block.s2 + (pos - block.s1)))
          else
            .ok (some (pair.seqname2, block.s2 + (block.e1 - 1 - pos)))
        else liftoverLoop pairs seqname pos rest
    else if seqname = pair.seqname2 then
      let i := bisect_right pair.blocks pos
      if i ≥ pair.blocks.length then liftoverLoop pairs seqname pos rest
      else
        let block := pair.blocks.getD i default
        if block.s2 ≤ pos ∧ pos ≤ block.e2 then
          if pair.strand1 = pair.strand2 then
            .ok (some (pair.seqname1, block.s1 + (pos - block.s2)))
          else
            .ok (some (pair.seqname1, block.s1 + (block.e2 - 1 - pos)))
        else liftoverLoop pairs seqname pos rest
    else liftoverLoop pairs seqname pos rest

/-- Result of `ChainIndex.liftover(seqname, pos)`: either the
translated coordinate, `none` for "absent", or the exception the
Python code raises. -/
def liftoverRun (cidx : ChainIndex) (seqname : String) (pos : Int) :
    Except Err (Option (String × Int)) :=
  let (sid, cidx2) := dictGetDefault cidx seqname
  liftoverLoop cidx2.pairs seqname pos (cidx2.sets.getD sid [])

/-- State of the index after a call to `liftover`: the only mutation
on the query path is the `defaultdict` access `self.seqnames[seqname]`
performed before the loop. -/
def liftoverState (cidx : ChainIndex) (seqname : String) : ChainIndex :=
  (dictGetDefault cidx seqname).2

/-- The pair addresses reachable from a sequence name (empty when the
name is unbound) — the contents of `cidx.seqnames[name]` without the
defaultdict side effect. -/
def pidsOfName (cidx : ChainIndex) (name : String) : List Nat :=
  match lookupName cidx.seqnames name with
  | some sid => cidx.sets.getD sid []
  | none => []

/-- The index a single parsed chain produces: one `SeqPair` object at
address 0, one shared set containing it, and both sequence names bound
to that set. -/
def singlePairIndex (pair : SeqPair) : ChainIndex :=
  ⟨[pair], [[0]], [(pair.seqname1, 0), (pair.seqname2, 0)]⟩

/-- The two-line chain file of the end-to-end example: one chain, one
terminal run of size 100. -/
def lines7 : List String :=
  ["chain 100 chr1 1000 + 0 100 chr2 1000 + 0 100 1", "100"]

/-- The single pair the example file parses to. -/
def pair7 : SeqPair :=
  { seqname1 := "chr1", seqname2 := "chr2", strand1 := "+", strand2 := "+",
    blocks := [⟨0, 100, 0, 100⟩] }

/-- The chain file of the gap example: a run of size 50 with trailing
gaps 10 and 20, then a terminal run of size 50. -/
def lines6 : List String :=
  ["chain 1 chr1 200 + 0 200 chr2 200 + 0 200 1", "50 10 20", "50"]

/-- Two chains in which the name `X` appears with two different
partners, the second time on the B side. -/
def lines2c : List String :=
  ["chain 1 X 10 + 0 1 Y 10 + 0 1 1", "1",
   "chain 1 Z 10 + 0 1 X 10 + 0 1 1", "1"]

/-- The pair of the gap example: blocks `(0,50,0,50)` and
`(61,111,71,121)`. -/
def pair6 : SeqPair :=
  { seqname1 := "chr1", seqname2 := "chr2", strand1 := "+", strand2 := "+",
    blocks := [⟨0, 50, 0, 50⟩, ⟨61, 111, 71, 121⟩] }

/-- The index the two-chain input `lines2c` parses to: the binding of
`X` has been overwritten by the second chain's aliasing assignment, so
only pair 1 is reachable from `X`. -/
def idx2c : ChainIndex :=
  { pairs :=
      [{ seqname1 := "X", seqname2 := "Y", strand1 := "+", strand2 := "+",
         blocks := [⟨0, 1, 0, 1⟩] },
       { seqname1 := "Z", seqname2 := "X", strand1 := "+", strand2 := "+",
         blocks := [⟨0, 1, 0, 1⟩] }],
    sets := [[0], [1]],
    seqnames := [("X", 1), ("Y", 0), ("Z", 1)] }

/-! ### Derived predicates over the embedding -/

/-- Per-block well-formedness: non-empty span on genome 1 and the
gapless same-length invariant. -/
def wfBlock (b : GapLessBlock) : Prop :=
  b.s1 ≤ b.e1 ∧ b.e1 - b.s1 = b.e2 - b.s2

/-- Consecutive blocks strictly separated on both genomes. -/
def chainOk : List GapLessBlock → Bool
  | [] => true
  | [_] => true
  | a :: b :: rest =>
    (decide (a.e1 < b.s1) && decide (a.e2 < b.s2)) && chainOk (b :: rest)

/-- The shape the parser gives each pair's block list when every run
size and gap is non-negative: well-formed blocks, consecutive blocks
strictly separated on both genomes. -/
def GoodBlocks (bs : List GapLessBlock) : Prop :=
  (∀ b ∈ bs, wfBlock b) ∧ chainOk bs = true

instance : DecidablePred wfBlock := fun b =>
  inferInstanceAs (Decidable (b.s1 ≤ b.e1 ∧ b.e1 - b.s1 = b.e2 - b.s2))

instance (bs : List GapLessBlock) : Decidable (GoodBlocks bs) :=
  inferInstanceAs (Decidable ((∀ b ∈ bs, wfBlock b) ∧ chainOk bs = true))

/-- Whether a Python `int()` conversion fails. -/
def exceptFails (x : Except Err Int) : Bool :=
  match x with
  | .ok _ => false
  | .error _ => true

/-- A line that is malformed in the sense of the specification: a
header line missing required fields (fewer than 11 whitespace-split
tokens), or a body line that neither consists of three integer fields
nor is the single-integer terminal form. -/
def isMalformedLine (line : List Char) : Bool :=
  if line = [] then false
  else if line.headD ' ' = '#' ∨ pyRstrip line = [] then false
  else if pyStartsChain line then decide ((pySplit line).length < 11)
  else
    match pySplit line with
    | [a, b, c] =>
      exceptFails (pyInt a) || exceptFails (pyInt b) || exceptFails (pyInt c)
    | _ => exceptFails (pyInt (pyRstrip line))

/-- `true` when an `int()` result, if successful, is non-negative. -/
def exceptNonNeg (x : Except Err Int) : Bool :=
  match x with
  | .ok v => decide (0 ≤ v)
  | .error _ => true

/-- All run sizes and gaps a body line contributes are non-negative
(skipped lines and header lines impose nothing). -/
def lineNonNeg (line : List Char) : Bool :=
  if line = [] then true
  else if line.headD ' ' = '#' ∨ pyRstrip line = [] then true
  else if pyStartsChain line then true
  else
    match pySplit line with
    | [a, b, c] =>
      exceptNonNeg (pyInt a) && exceptNonNeg (pyInt b) && exceptNonNeg (pyInt c)
    | _ => exceptNonNeg (pyInt (pyRstrip line))

/-- Parser-state invariant: every pair on the heap has good blocks,
the address of the current pair is valid, and the running cursors
strictly exceed both ends of every block of the current pair. -/
def Inv (st : PState) : Prop :=
  (∀ pr ∈ st.cidx.pairs, GoodBlocks pr.blocks) ∧
  match st.cur with
  | none => True
  | some (pid, s1, s2) =>
    pid < st.cidx.pairs.length ∧
    ∀ b ∈ (st.cidx.pairs.getD pid default).blocks, b.e1 < s1 ∧ b.e2 < s2

/-! ### Dictionary and heap lemmas -/

/-- A successful lookup is unaffected by bindings appended later. -/
theorem lookupName_append_some {d : List (String × Nat)} {k : String} {v : Nat}
    (h : lookupName d k = some v) (d' : List (String × Nat)) :
    lookupName (d ++ d') k = some v := by
  induction d with
  | nil => simp [lookupName] at h
  | cons e d ih =>
    by_cases he : e.1 = k
    · simpa [lookupName, he] using h
    · simp only [lookupName, if_neg he] at h ⊢
      exact ih h

/-- Appending one binding to a dictionary where the key is absent. -/
theorem lookupName_append_single {d : List (String × Nat)} {k : String}
    (h : lookupName d k = none) (k' : String) (v : Nat) :
    lookupName (d ++ [(k', v)]) k = if k' = k then some v else none := by
  induction d with
  | nil => simp [lookupName]
  | cons e d ih =>
    by_cases he : e.1 = k
    · simp [lookupName, he] at h
    · simp only [lookupName, if_neg he] at h ⊢
      exact ih h

/-- Appending a fresh empty set to the set heap changes no `getD`
access with default `[]`. -/
theorem getD_append_emptyset (sets : List (List Nat)) (i : Nat) :
    (sets ++ [[]]).getD i [] = sets.getD i [] := by
  rcases Nat.lt_or_ge i sets.length with h | h
  · exact List.getD_append _ _ _ _ h
  · rw [List.getD_append_right _ _ _ _ h, List.getD_eq_default _ _ h]
    cases i - sets.length with
    | zero => rfl
    | succ n => rfl

/-- The fresh set allocated by a missing-key defaultdict access is
empty. -/
theorem getD_append_emptyset_last (sets : List (List Nat)) :
    (sets ++ [[]]).getD sets.length [] = [] := by
  rw [List.getD_append_right _ _ _ _ (Nat.le_refl _)]
  simp

/-! ### Frame behaviour of the query (claim C4) -/

/-- Helper: a query on an unbound name iterates over the freshly
allocated empty set and yields `none`. -/
theorem liftoverRun_unbound {cidx : ChainIndex} {name : String}
    (h : lookupName cidx.seqnames name = none) (pos : Int) :
    liftoverRun cidx name pos = .ok none := by
  unfold liftoverRun dictGetDefault
  rw [h]
  simp only []
  rw [getD_append_emptyset_last]
  rfl

/-- C4 (amended): a `liftover` query never changes the heap of
`SeqPair` objects nor the set of pair addresses reachable from any
name; a query on an unbound name returns absent.  (The literal claim
fails: the `defaultdict` access inserts an empty-set binding for an
unknown name, see the counterexample.) -/
theorem C4_liftover_frame (cidx : ChainIndex) (name : String) (pos : Int) :
    (liftoverState cidx name).pairs = cidx.pairs ∧
    (∀ n, pidsOfName (liftoverState cidx name) n = pidsOfName cidx n) ∧
    (lookupName cidx.seqnames name = none → liftoverRun cidx name pos = .ok none) := by
  refine ⟨?_, ?_, fun h => liftoverRun_unbound h pos⟩
  · unfold liftoverState dictGetDefault
    cases h : lookupName cidx.seqnames name <;> simp [h]
  · intro n
    unfold liftoverState dictGetDefault
    cases h : lookupName cidx.seqnames name with
    | some sid => simp [h]
    | none =>
      simp only [h]
      unfold pidsOfName
      cases hn : lookupName cidx.seqnames n with
      | some sid =>
        rw [lookupName_append_some hn]
        show (cidx.sets ++ [[]]).getD sid [] = cidx.sets.getD sid []
        exact getD_append_emptyset _ _
      | none =>
        rw [lookupName_append_single hn]
        by_cases hk : name = n
        · subst hk
          rw [if_pos rfl]
          show (cidx.sets ++ [[]]).getD cidx.sets.length [] = []
          exact getD_append_emptyset_last _
        · rw [if_neg hk]

/-- C4 counterexample: the claim says a query on an unregistered name
does not modify the name-to-pairs mapping, but the `defaultdict`
access inserts a binding for the queried name: the index after the
query differs from the index before it. -/
theorem C4_counterexample :
    construct_from_chain_file lines7 = .ok (singlePairIndex pair7) ∧
    liftoverState (singlePairIndex pair7) "chr3" ≠ singlePairIndex pair7 ∧
    liftoverRun (singlePairIndex pair7) "chr3" 50 = .ok none :=
  ⟨rfl, by decide, rfl⟩

/-- C4 witness: the amended frame property evaluated on the example
index and an unknown name. -/
theorem C4_liftover_frame_witness :
    (liftoverState (singlePairIndex pair7) "chr3").pairs = (singlePairIndex pair7).pairs ∧
    pidsOfName (liftoverState (singlePairIndex pair7) "chr3") "chr1" =
      pidsOfName (singlePairIndex pair7) "chr1" ∧
    liftoverRun (singlePairIndex pair7) "chr3" 50 = .ok none :=
  ⟨(C4_liftover_frame (singlePairIndex pair7) "chr3" 50).1,
   (C4_liftover_frame (singlePairIndex pair7) "chr3" 50).2.1 "chr1",
   (C4_liftover_frame (singlePairIndex pair7) "chr3" 50).2.2 (by decide)⟩

/-! ### Concrete end-to-end claims -/

/-- C1: the role-A search path subscripts `blocks[i]` without a bound
check, so a query past the last block of the only candidate pair
raises `IndexError` instead of contributing no result: on the
one-block example index, `liftover('chr1', 200)` fails. -/
theorem C1_role_A_index_error :
    construct_from_chain_file lines7 = .ok (singlePairIndex pair7) ∧
    liftoverRun (singlePairIndex pair7) "chr1" 200 = .error .indexError :=
  ⟨rfl, rfl⟩

/-- C2: after parsing a chain `(X, Y)` followed by a chain `(Z, X)`,
the assignment `seqnames[nameB] = seqnames[nameA]` of the second
header overwrites the binding of `X`, so the first pair — whose
`seqname1` is `X` — is no longer a member of the set reachable from
`X` (it remains reachable from `Y`). -/
theorem C2_registration_overwritten :
    construct_from_chain_file lines2c = .ok idx2c ∧
    (idx2c.pairs.getD 0 default).seqname1 = "X" ∧
    (idx2c.pairs.getD 0 default).seqname2 = "Y" ∧
    0 ∉ pidsOfName idx2c "X" ∧
    0 ∈ pidsOfName idx2c "Y" :=
  ⟨rfl, rfl, rfl, by decide, by decide⟩

/-- C3 counterexample: on the one-block same-strand index with block
`(0,100,0,100)`, the position `p = e1 = 100` is covered on the A side
and maps to `(chr2, 100)`, but querying the B side at that returned
position yields absent (the upper-bound search skips the block whose
`e2` equals the position), so the round-trip clause of the claim fails
at `p = e1`. -/
theorem C3_counterexample :
    construct_from_chain_file lines7 = .ok (singlePairIndex pair7) ∧
    liftoverRun (singlePairIndex pair7) "chr1" 100 = .ok (some ("chr2", 100)) ∧
    liftoverRun (singlePairIndex pair7) "chr2" 100 = .ok none ∧
    liftoverRun (singlePairIndex pair7) "chr2" 100 ≠ .ok (some ("chr1", 100)) :=
  ⟨rfl, rfl, rfl, fun hc => Option.noConfusion (Except.ok.inj hc)⟩

/-- C6: the gap example. Body lines `50 10 20` then `50` produce the
blocks `(0,50,0,50)` and `(61,111,71,121)`; position 61 maps to
`(chr2, 71)` and position 55, inside the gap, is absent. -/
theorem C6_gap_example :
    construct_from_chain_file lines6 = .ok (singlePairIndex pair6) ∧
    pair6.blocks = [⟨0, 50, 0, 50⟩, ⟨61, 111, 71, 121⟩] ∧
    liftoverRun (singlePairIndex pair6) "chr1" 61 = .ok (some ("chr2", 71)) ∧
    liftoverRun (singlePairIndex pair6) "chr1" 55 = .ok none :=
  ⟨rfl, rfl, rfl, rfl⟩

/-- C7: the minimal end-to-end example. The two-line input yields the
single block `(0,100,0,100)` and position 50 maps to position 50 in
both directions. -/
theorem C7_minimal_example :
    construct_from_chain_file lines7 = .ok (singlePairIndex pair7) ∧
    pair7.blocks = [⟨0, 100, 0, 100⟩] ∧
    liftoverRun (singlePairIndex pair7) "chr1" 50 = .ok (some ("chr2", 50)) ∧
    liftoverRun (singlePairIndex pair7) "chr2" 50 = .ok (some ("chr1", 50)) :=
  ⟨rfl, rfl, rfl, rfl⟩

/-! ### Correctness of the bisection loop -/

/-- Unfolding equation for one step of the bisection loop. -/
theorem pyBisectAux_succ (pred : Nat → Bool) (fuel lo hi : Nat) :
    pyBisectAux pred (fuel + 1) lo hi =
      if lo < hi then
        if pred ((lo + hi) / 2) then pyBisectAux pred fuel ((lo + hi) / 2 + 1) hi
        else pyBisectAux pred fuel lo ((lo + hi) / 2)
      else lo := rfl

/-- The bisection loop, given enough fuel and a predicate that is
downward-closed on `[lo, hi)`, returns the frontier: every index
below the result satisfies the predicate, every index from the result
up to `hi` falsifies it. -/
theorem pyBisectAux_spec (pred : Nat → Bool) :
    ∀ fuel lo hi : Nat, hi - lo ≤ fuel → lo ≤ hi →
    (∀ i j, lo ≤ i → i ≤ j → j < hi → pred j = true → pred i = true) →
    lo ≤ pyBisectAux pred fuel lo hi ∧ pyBisectAux pred fuel lo hi ≤ hi ∧
    (∀ i, lo ≤ i → i < pyBisectAux pred fuel lo hi → pred i = true) ∧
    (∀ i, pyBisectAux pred fuel lo hi ≤ i → i < hi → pred i = false) := by
  intro fuel
  induction fuel with
  | zero =>
    intro lo hi hf hlh _
    have hz : pyBisectAux pred 0 lo hi = lo := rfl
    rw [hz]
    exact ⟨Nat.le_refl _, hlh, fun i h1 h2 => absurd h2 (by omega),
      fun i h1 h2 => absurd h2 (by omega)⟩
  | succ fuel ih =>
    intro lo hi hf hlh mono
    by_cases hlo : lo < hi
    · have hmid1 : lo ≤ (lo + hi) / 2 := by omega
      have hmid2 : (lo + hi) / 2 < hi := by omega
      rw [pyBisectAux_succ, if_pos hlo]
      cases hp : pred ((lo + hi) / 2) with
      | true =>
        rw [if_pos rfl]
        obtain ⟨h1, h2, h3, h4⟩ :=
          ih ((lo + hi) / 2 + 1) hi (by omega) (by omega)
            (fun i j hi1 hij hj hpj => mono i j (by omega) hij hj hpj)
        refine ⟨by omega, h2, ?_, h4⟩
        intro i hi1 hi2
        rcases Nat.lt_or_ge i ((lo + hi) / 2 + 1) with hcase | hcase
        · exact mono i ((lo + hi) / 2) hi1 (by omega) hmid2 hp
        · exact h3 i hcase hi2
      | false =>
        rw [if_neg Bool.false_ne_true]
        obtain ⟨h1, h2, h3, h4⟩ :=
          ih lo ((lo + hi) / 2) (by omega) (by omega)
            (fun i j hi1 hij hj hpj => mono i j hi1 hij (by omega) hpj)
        refine ⟨h1, by omega, h3, ?_⟩
        intro i hri hih
        rcases Nat.lt_or_ge i ((lo + hi) / 2) with hcase | hcase
        · exact h4 i hri hcase
        · rcases Nat.eq_or_lt_of_le hcase with hcase' | hcase'
          · rw [← hcase']; exact hp
          · cases hq : pred i with
            | false => rfl
            | true =>
              exact absurd (mono ((lo + hi) / 2) i hmid1 (by omega) hih hq)
                (by simp [hp])
    · rw [pyBisectAux_succ, if_neg hlo]
      have heq : lo = hi := by omega
      exact ⟨Nat.le_refl _, hlh, fun i h1 h2 => absurd h2 (by omega),
        fun i h1 h2 => absurd h2 (by omega)⟩

/-! ### Sorted block lists -/

/-- Extraction of one separation link from `chainOk`. -/
theorem chainOk_link {bs : List GapLessBlock} (h : chainOk bs = true) :
    ∀ i, i + 1 < bs.length →
    (bs.getD i default).e1 < (bs.getD (i + 1) default).s1 ∧
    (bs.getD i default).e2 < (bs.getD (i + 1) default).s2 := by
  induction bs with
  | nil => intro i hi; simp at hi
  | cons a rest ih =>
    intro i hi
    cases rest with
    | nil => simp only [List.length_cons, List.length_nil] at hi; omega
    | cons b rest2 =>
      have h' : ((decide (a.e1 < b.s1) && decide (a.e2 < b.s2)) &&
          chainOk (b :: rest2)) = true := h
      simp only [Bool.and_eq_true, decide_eq_true_eq] at h'
      cases i with
      | zero =>
        simpa [List.getD_cons_zero, List.getD_cons_succ] using h'.1
      | succ i =>
        have hrec := ih h'.2 i (by simp only [List.length_cons] at hi ⊢; omega)
        simpa [List.getD_cons_succ] using hrec

/-- Bridge between the `getD` access of the embedded code and `get`. -/
theorem getD_eq_get {α : Type} [Inhabited α] {bs : List α} {i : Nat} (h : i < bs.length) :
    bs.getD i default = bs.get ⟨i, h⟩ := by
  rw [List.getD_eq_getElem?_getD, List.getElem?_eq_getElem h]
  rfl

/-- In a good block list, a strictly earlier block ends strictly
before a later one starts, on both genomes. -/
theorem good_rel {bs : List GapLessBlock} (h : GoodBlocks bs) :
    ∀ j, j < bs.length → ∀ i, i < j →
    (bs.getD i default).e1 < (bs.getD j default).s1 ∧
    (bs.getD i default).e2 < (bs.getD j default).s2 := by
  intro j
  induction j with
  | zero => intro _ i hi; exact absurd hi (by omega)
  | succ j ihj =>
    intro hj i hi
    have hlink := chainOk_link h.2 j (by omega)
    rcases Nat.lt_or_ge i j with hij | hij
    · have hrec := ihj (by omega) i hij
      have hwfj : wfBlock (bs.getD j default) := by
        have := h.1 (bs.get ⟨j, by omega⟩) (List.get_mem bs _ _)
        rwa [← getD_eq_get (by omega)] at this
      unfold wfBlock at hwfj
      exact ⟨by omega, by omega⟩
    · have heq : i = j := by omega
      subst heq
      exact hlink

/-- `e1` is monotone along a good block list. -/
theorem good_e1_mono {bs : List GapLessBlock} (h : GoodBlocks bs) {i j : Nat}
    (hij : i ≤ j) (hj : j < bs.length) :
    (bs.getD i default).e1 ≤ (bs.getD j default).e1 := by
  rcases Nat.eq_or_lt_of_le hij with heq | hlt
  · rw [heq]
  · have hrel := good_rel h j hj i hlt
    have hwfj : wfBlock (bs.getD j default) := by
      have := h.1 (bs.get ⟨j, hj⟩) (List.get_mem bs _ _)
      rwa [← getD_eq_get hj] at this
    unfold wfBlock at hwfj
    omega

/-- `e2` is monotone along a good block list. -/
theorem good_e2_mono {bs : List GapLessBlock} (h : GoodBlocks bs) {i j : Nat}
    (hij : i ≤ j) (hj : j < bs.length) :
    (bs.getD i default).e2 ≤ (bs.getD j default).e2 := by
  rcases Nat.eq_or_lt_of_le hij with heq | hlt
  · rw [heq]
  · have hrel := good_rel h j hj i hlt
    have hwfj : wfBlock (bs.getD j default) := by
      have := h.1 (bs.get ⟨j, hj⟩) (List.get_mem bs _ _)
      rwa [← getD_eq_get hj] at this
    unfold wfBlock at hwfj
    omega

/-- The role-A lower-bound search lands exactly on a block covering
the queried position. -/
theorem bisect_left_cover {bs : List GapLessBlock} (h : GoodBlocks bs) {k : Nat}
    (hk : k < bs.length) {p : Int}
    (hp1 : (bs.getD k default).s1 ≤ p) (hp2 : p ≤ (bs.getD k default).e1) :
    bisect_left bs p = k := by
  obtain ⟨h1, h2, h3, h4⟩ :=
    pyBisectAux_spec (fun i => decide ((bs.getD i default).e1 < p)) bs.length 0 bs.length
      (by omega) (by omega)
      (fun i j _ hij hj hpj => by
        simp only [decide_eq_true_eq] at hpj ⊢
        exact lt_of_le_of_lt (good_e1_mono h hij hj) hpj)
  rcases lt_trichotomy (bisect_left bs p) k with hlt | heq | hgt
  · exfalso
    have hfalse := h4 (bisect_left bs p) (Nat.le_refl _) (by omega)
    have hrel := good_rel h k hk _ hlt
    simp only [decide_eq_false_iff_not, not_lt] at hfalse
    omega
  · exact heq
  · exfalso
    have htrue := h3 k (by omega) hgt
    simp only [decide_eq_true_eq] at htrue
    omega

/-- The role-B upper-bound search lands exactly on a block whose
genome-2 interval covers the queried position strictly below its
end. -/
theorem bisect_right_cover {bs : List GapLessBlock} (h : GoodBlocks bs) {k : Nat}
    (hk : k < bs.length) {q : Int}
    (hq1 : (bs.getD k default).s2 ≤ q) (hq2 : q < (bs.getD k default).e2) :
    bisect_right bs q = k := by
  obtain ⟨h1, h2, h3, h4⟩ :=
    pyBisectAux_spec (fun i => decide ((bs.getD i default).e2 ≤ q)) bs.length 0 bs.length
      (by omega) (by omega)
      (fun i j _ hij hj hpj => by
        simp only [decide_eq_true_eq] at hpj ⊢
        exact le_trans (good_e2_mono h hij hj) hpj)
  rcases lt_trichotomy (bisect_right bs q) k with hlt | heq | hgt
  · exfalso
    have hfalse := h4 (bisect_right bs q) (Nat.le_refl _) (by omega)
    have hrel := good_rel h k hk _ hlt
    simp only [decide_eq_false_iff_not, not_le] at hfalse
    omega
  · exact heq
  · exfalso
    have htrue := h3 k (by omega) hgt
    simp only [decide_eq_true_eq] at htrue
    omega

/-- The role-B upper-bound search at position exactly `e2` of block
`k` skips to position `k + 1`. -/
theorem bisect_right_at_e2 {bs : List GapLessBlock} (h : GoodBlocks bs) {k : Nat}
    (hk : k < bs.length) :
    bisect_right bs ((bs.getD k default).e2) = k + 1 := by
  have hbr : bisect_right bs ((bs.getD k default).e2) =
      pyBisectAux (fun i => decide ((bs.getD i default).e2 ≤ (bs.getD k default).e2))
        bs.length 0 bs.length := rfl
  obtain ⟨h1, h2, h3, h4⟩ :=
    pyBisectAux_spec (fun i => decide ((bs.getD i default).e2 ≤ (bs.getD k default).e2))
      bs.length 0 bs.length (by omega) (by omega)
      (fun i j _ hij hj hpj => by
        simp only [decide_eq_true_eq] at hpj ⊢
        exact le_trans (good_e2_mono h hij hj) hpj)
  rw [← hbr] at h1 h2 h3 h4
  rcases lt_trichotomy (bisect_right bs ((bs.getD k default).e2)) (k + 1)
    with hlt | heq | hgt
  · exfalso
    have hfalse := h4 k (by omega) hk
    simp only [decide_eq_false_iff_not, not_le] at hfalse
    omega
  · exact heq
  · exfalso
    have hk1 : k + 1 < bs.length := by omega
    have htrue := h3 (k + 1) (by omega) hgt
    have hrel := good_rel h (k + 1) hk1 k (by omega)
    have hwf : wfBlock (bs.getD (k + 1) default) := by
      have := h.1 (bs.get ⟨k + 1, hk1⟩) (List.get_mem bs _ _)
      rwa [← getD_eq_get hk1] at this
    unfold wfBlock at hwf
    simp only [decide_eq_true_eq] at htrue
    omega

/-! ### Queries on a one-chain index -/

/-- On a one-chain index, a query for either participating name
resolves the dictionary access to the shared one-element set. -/
theorem liftoverRun_single (pair : SeqPair) (name : String) (pos : Int)
    (hname : name = pair.seqname1 ∨ (pair.seqname1 ≠ name ∧ name = pair.seqname2)) :
    liftoverRun (singlePairIndex pair) name pos = liftoverLoop [pair] name pos [0] := by
  unfold liftoverRun dictGetDefault singlePairIndex
  rcases hname with h | ⟨h1, h2⟩
  · subst h
    simp [lookupName]
  · subst h2
    simp [lookupName, h1]

/-- Evaluation of the query loop on a single pair: the branch on the
role of `name`, the bisection, the coverage test and the strand
transform of the Python loop body; a fall-through yields absent. -/
theorem liftoverLoop_single (pair : SeqPair) (name : String) (pos : Int) :
    liftoverLoop [pair] name pos [0] =
      if name = pair.seqname1 then
        match pair.blocks.get? (bisect_left pair.blocks pos) with
        | none => .error .indexError
        | some block =>
          if block.s1 ≤ pos ∧ pos ≤ block.e1 then
            if pair.strand1 = pair.strand2 then
              .ok (some (pair.seqname2, block.s2 + (pos - block.s1)))
            else .ok (some (pair.seqname2, block.s2 + (block.e1 - 1 - pos)))
          else .ok none
      else if name = pair.seqname2 then
        if bisect_right pair.blocks pos ≥ pair.blocks.length then .ok none
        else
          if (pair.blocks.getD (bisect_right pair.blocks pos) default).s2 ≤ pos ∧
              pos ≤ (pair.blocks.getD (bisect_right pair.blocks pos) default).e2 then
            if pair.strand1 = pair.strand2 then
              .ok (some (pair.seqname1,
                (pair.blocks.getD (bisect_right pair.blocks pos) default).s1 +
                  (pos - (pair.blocks.getD (bisect_right pair.blocks pos) default).s2)))
            else
              .ok (some (pair.seqname1,
                (pair.blocks.getD (bisect_right pair.blocks pos) default).s1 +
                  ((pair.blocks.getD (bisect_right pair.blocks pos) default).e2 - 1 - pos)))
          else .ok none
      else .ok none := rfl

/-- C3 (amended): on a one-chain same-strand index, every position
`p` with `s1 ≤ p ≤ e1` of a block maps from the A side to
`(nameB, s2 + (p - s1))`; querying the B side at the returned
position maps back to `(nameA, p)` for `p < e1`.  (At `p = e1` the
returned position is the block's `e2`, which the B-side upper-bound
search does not cover — see the counterexample.) -/
theorem C3_same_strand_roundtrip (pair : SeqPair) (hgood : GoodBlocks pair.blocks)
    (hne : pair.seqname1 ≠ pair.seqname2) (hs : pair.strand1 = pair.strand2)
    {b : GapLessBlock} (hb : b ∈ pair.blocks) {p : Int}
    (hp1 : b.s1 ≤ p) (hp2 : p ≤ b.e1) :
    liftoverRun (singlePairIndex pair) pair.seqname1 p =
      .ok (some (pair.seqname2, b.s2 + (p - b.s1))) ∧
    (p < b.e1 →
      liftoverRun (singlePairIndex pair) pair.seqname2 (b.s2 + (p - b.s1)) =
        .ok (some (pair.seqname1, p))) := by
  obtain ⟨⟨k, hk⟩, hbk⟩ := List.mem_iff_get.mp hb
  have hbd : pair.blocks.getD k default = b := by rw [getD_eq_get hk, hbk]
  have hwfb : wfBlock b := hgood.1 b hb
  unfold wfBlock at hwfb
  constructor
  · have hbl : bisect_left pair.blocks p = k :=
      bisect_left_cover hgood hk (by rw [hbd]; exact hp1) (by rw [hbd]; exact hp2)
    have hget : pair.blocks.get? (bisect_left pair.blocks p) = some b := by
      rw [hbl, List.get?_eq_get hk, hbk]
    rw [liftoverRun_single pair _ p (Or.inl rfl), liftoverLoop_single,
      if_pos rfl, hget]
    show (if b.s1 ≤ p ∧ p ≤ b.e1 then
        if pair.strand1 = pair.strand2 then
          Except.ok (some (pair.seqname2, b.s2 + (p - b.s1)))
        else Except.ok (some (pair.seqname2, b.s2 + (b.e1 - 1 - p)))
      else Except.ok none) =
      Except.ok (some (pair.seqname2, b.s2 + (p - b.s1)))
    rw [if_pos ⟨hp1, hp2⟩, if_pos hs]
  · intro hplt
    have hq1 : b.s2 ≤ b.s2 + (p - b.s1) := by omega
    have hq2 : b.s2 + (p - b.s1) < b.e2 := by omega
    have hbr : bisect_right pair.blocks (b.s2 + (p - b.s1)) = k :=
      bisect_right_cover hgood hk (by rw [hbd]; exact hq1) (by rw [hbd]; exact hq2)
    rw [liftoverRun_single pair _ _ (Or.inr ⟨hne, rfl⟩), liftoverLoop_single,
      if_neg (Ne.symm hne), if_pos rfl, hbr, if_neg (by omega)]
    simp only [hbd]
    rw [if_pos ⟨hq1, le_of_lt hq2⟩, if_pos hs]
    have harith : b.s1 + (b.s2 + (p - b.s1) - b.s2) = p := by omega
    rw [harith]

/-- C3 witness: the amended statement evaluated on the gap-example
pair, block `(0,50,0,50)`, position 30: forward to `(chr2, 30)` and
back to `(chr1, 30)`. -/
theorem C3_same_strand_roundtrip_witness :
    liftoverRun (singlePairIndex pair6) "chr1" 30 = .ok (some ("chr2", 30)) ∧
    liftoverRun (singlePairIndex pair6) "chr2" 30 = .ok (some ("chr1", 30)) := by
  have h := C3_same_strand_roundtrip pair6 (by decide) (by decide) rfl
    (b := ⟨0, 50, 0, 50⟩) (by decide) (p := 30) (by decide) (by decide)
  exact ⟨h.1, h.2 (by decide)⟩

/-- C9: on a one-chain cross-strand index, a covered position `p`
maps from the A side to `(nameB, s2 + (e1 - 1 - p))`; that value
equals `e2 - 1 - (p - s1)`, and the inverse transform
`q ↦ s1 + (e2 - 1 - q)` carries it back to `p`. -/
theorem C9_cross_strand (pair : SeqPair) (hgood : GoodBlocks pair.blocks)
    (hs : pair.strand1 ≠ pair.strand2)
    {b : GapLessBlock} (hb : b ∈ pair.blocks) {p : Int}
    (hp1 : b.s1 ≤ p) (hp2 : p ≤ b.e1) :
    liftoverRun (singlePairIndex pair) pair.seqname1 p =
      .ok (some (pair.seqname2, b.s2 + (b.e1 - 1 - p))) ∧
    b.s2 + (b.e1 - 1 - p) = b.e2 - 1 - (p - b.s1) ∧
    b.s1 + (b.e2 - 1 - (b.s2 + (b.e1 - 1 - p))) = p := by
  obtain ⟨⟨k, hk⟩, hbk⟩ := List.mem_iff_get.mp hb
  have hbd : pair.blocks.getD k default = b := by rw [getD_eq_get hk, hbk]
  have hwfb : wfBlock b := hgood.1 b hb
  unfold wfBlock at hwfb
  refine ⟨?_, by omega, by omega⟩
  have hbl : bisect_left pair.blocks p = k :=
    bisect_left_cover hgood hk (by rw [hbd]; exact hp1) (by rw [hbd]; exact hp2)
  have hget : pair.blocks.get? (bisect_left pair.blocks p) = some b := by
    rw [hbl, List.get?_eq_get hk, hbk]
  rw [liftoverRun_single pair _ p (Or.inl rfl), liftoverLoop_single,
    if_pos rfl, hget]
  show (if b.s1 ≤ p ∧ p ≤ b.e1 then
      if pair.strand1 = pair.strand2 then
        Except.ok (some (pair.seqname2, b.s2 + (p - b.s1)))
      else Except.ok (some (pair.seqname2, b.s2 + (b.e1 - 1 - p)))
    else Except.ok none) =
    Except.ok (some (pair.seqname2, b.s2 + (b.e1 - 1 - p)))
  rw [if_pos ⟨hp1, hp2⟩, if_neg hs]

/-- C9 witness: a cross-strand pair with one block `(10,20,100,110)`;
position 12 maps to `100 + (20 - 1 - 12) = 107`, which equals
`110 - 1 - 2`, and the inverse transform returns 12. -/
theorem C9_cross_strand_witness :
    liftoverRun
      (singlePairIndex
        { seqname1 := "a", seqname2 := "b", strand1 := "+", strand2 := "-",
          blocks := [⟨10, 20, 100, 110⟩] }) "a" 12 = .ok (some ("b", 107)) ∧
    (107 : Int) = 110 - 1 - (12 - 10) ∧
    (10 : Int) + (110 - 1 - 107) = 12 := by
  have h := C9_cross_strand
    { seqname1 := "a", seqname2 := "b", strand1 := "+", strand2 := "-",
      blocks := [⟨10, 20, 100, 110⟩] } (by decide) (by decide)
    (b := ⟨10, 20, 100, 110⟩) (by decide) (p := 12) (by decide) (by decide)
  exact ⟨h.1, by decide, by decide⟩

/-! ### Malformed lines abort construction (claim C5) -/

/-- Inversion of a successful `Except` bind. -/
theorem bind_ok {α β : Type} {x : Except Err α} {f : α → Except Err β} {b : β}
    (h : (x >>= f) = .ok b) : ∃ a, x = .ok a ∧ f a = .ok b := by
  cases x with
  | error e => exact Except.noConfusion h
  | ok a => exact ⟨a, rfl, h⟩

/-- A successful subscript implies the index is in range. -/
theorem pyIndex_ok {l : List (List Char)} {i : Nat} {x : List Char}
    (h : pyIndex l i = .ok x) : i < l.length := by
  unfold pyIndex at h
  cases hg : l.get? i with
  | none => rw [hg] at h; exact Except.noConfusion h
  | some y =>
    obtain ⟨hlt, -⟩ := List.get?_eq_some.mp hg
    exact hlt

/-- A successful `int()` has `exceptFails` false. -/
theorem exceptFails_of_ok {x : Except Err Int} {v : Int} (h : x = .ok v) :
    exceptFails x = false := by
  rw [h]; rfl

/-- A header line with fewer than 11 tokens cannot be processed
successfully: one of the subscripts `items[2..10]` is out of range. -/
theorem processHeader_short {st : PState} {toks : List (List Char)}
    (hshort : toks.length < 11) : ∀ st', processHeader st toks ≠ .ok st' := by
  intro st' h
  unfold processHeader at h
  obtain ⟨nA, h2, h⟩ := bind_ok h
  obtain ⟨nB, h7, h⟩ := bind_ok h
  obtain ⟨sA, h4, h⟩ := bind_ok h
  obtain ⟨sB, h9, h⟩ := bind_ok h
  obtain ⟨t5, h5, h⟩ := bind_ok h
  obtain ⟨s1v, hs1, h⟩ := bind_ok h
  obtain ⟨t10, h10, h⟩ := bind_ok h
  exact absurd (pyIndex_ok h10) (by omega)

/-- A malformed line makes the parsing step fail from any state. -/
theorem processLine_malformed {st : PState} {line : List Char}
    (hm : isMalformedLine line = true) :
    ∀ st', processLine st line ≠ .ok st' := by
  intro st' h
  unfold processLine at h
  unfold isMalformedLine at hm
  by_cases hempty : line = []
  · rw [if_pos hempty] at h
    exact Except.noConfusion h
  rw [if_neg hempty] at h hm
  by_cases hskip : line.headD ' ' = '#' ∨ pyRstrip line = []
  · rw [if_pos hskip] at hm
    exact Bool.noConfusion hm
  rw [if_neg hskip] at h hm
  by_cases hchain : pyStartsChain line
  · rw [if_pos hchain] at h hm
    exact processHeader_short (of_decide_eq_true hm) st' h
  rw [if_neg hchain] at h hm
  rcases htoks : pySplit line with _ | ⟨a, _ | ⟨b, _ | ⟨c, _ | ⟨d, rest⟩⟩⟩⟩ <;>
    rw [htoks] at h hm
  · unfold processBody at h
    obtain ⟨v, hv, -⟩ := bind_ok h
    rw [exceptFails_of_ok hv] at hm
    exact Bool.noConfusion hm
  · unfold processBody at h
    obtain ⟨v, hv, -⟩ := bind_ok h
    rw [exceptFails_of_ok hv] at hm
    exact Bool.noConfusion hm
  · unfold processBody at h
    obtain ⟨v, hv, -⟩ := bind_ok h
    rw [exceptFails_of_ok hv] at hm
    exact Bool.noConfusion hm
  · unfold processBody at h
    have hm3 : (exceptFails (pyInt a) || exceptFails (pyInt b) ||
        exceptFails (pyInt c)) = true := hm
    obtain ⟨sz, hsz, h⟩ := bind_ok h
    cases hcur : st.cur with
    | none => rw [hcur] at h; exact Except.noConfusion h
    | some t =>
      obtain ⟨pid, s1, s2⟩ := t
      rw [hcur] at h
      obtain ⟨n1, hn1, h⟩ := bind_ok h
      obtain ⟨n2, hn2, h⟩ := bind_ok h
      rw [exceptFails_of_ok hsz, exceptFails_of_ok hn1, exceptFails_of_ok hn2] at hm3
      exact Bool.noConfusion hm3
  · unfold processBody at h
    obtain ⟨v, hv, -⟩ := bind_ok h
    rw [exceptFails_of_ok hv] at hm
    exact Bool.noConfusion hm

/-- A malformed line anywhere in the input prevents the parsing loop
from finishing successfully. -/
theorem runLines_malformed : ∀ (ls : List (List Char)) (st : PState),
    (∃ l ∈ ls, isMalformedLine l = true) → ∀ st', runLines st ls ≠ .ok st' := by
  intro ls
  induction ls with
  | nil =>
    intro st hex st' _
    obtain ⟨l, hl, -⟩ := hex
    exact absurd hl (List.not_mem_nil l)
  | cons l ls ih =>
    intro st hex st' hok
    unfold runLines at hok
    cases hp : processLine st l with
    | error e => rw [hp] at hok; exact Except.noConfusion hok
    | ok st1 =>
      rw [hp] at hok
      obtain ⟨x, hx, hmx⟩ := hex
      rcases List.mem_cons.mp hx with rfl | hxs
      · exact processLine_malformed hmx st1 hp
      · exact ih st1 ⟨x, hxs, hmx⟩ st' hok

/-- C5: an input containing a malformed line (a body line with
non-numeric or missing fields that is not the single-integer terminal
form, or a header line missing required fields) makes construction
fail with an exception; the caller receives no (partial) index. -/
theorem C5_malformed_aborts (lines : List String)
    (hmal : ∃ l ∈ lines, isMalformedLine l.toList = true) :
    ∃ e, construct_from_chain_file lines = .error e := by
  have hex : ∃ l ∈ lines.map String.toList, isMalformedLine l = true := by
    obtain ⟨l, hl, hml⟩ := hmal
    exact ⟨l.toList, List.mem_map.mpr ⟨l, hl, rfl⟩, hml⟩
  unfold construct_from_chain_file
  cases hr : runLines ⟨⟨[], [], []⟩, none⟩ (lines.map String.toList) with
  | error e => exact ⟨e, rfl⟩
  | ok st => exact absurd hr (runLines_malformed _ _ hex st)

/-- C5 witness: a header line with only three tokens is malformed and
construction fails on it. -/
theorem C5_malformed_aborts_witness :
    (∃ l ∈ ["chain 1 2", "100"], isMalformedLine l.toList = true) ∧
    ∃ e, construct_from_chain_file ["chain 1 2", "100"] = .error e :=
  ⟨by decide, C5_malformed_aborts ["chain 1 2", "100"] (by decide)⟩

/-! ### Parser invariant (claims C8 and C10) -/

/-- A non-negativity certificate transfers to the parsed value. -/
theorem exceptNonNeg_ok {x : Except Err Int} {v : Int}
    (hx : exceptNonNeg x = true) (h : x = .ok v) : 0 ≤ v := by
  subst h
  exact of_decide_eq_true hx

/-- Appending a block beyond all current blocks keeps the separation
chain. -/
theorem chainOk_append : ∀ (bs : List GapLessBlock) (nb : GapLessBlock),
    chainOk bs = true → (∀ x ∈ bs, x.e1 < nb.s1 ∧ x.e2 < nb.s2) →
    chainOk (bs ++ [nb]) = true := by
  intro bs
  induction bs with
  | nil => intro nb _ _; rfl
  | cons x rest ih =>
    intro nb hc hlast
    cases rest with
    | nil =>
      have hx := hlast x (List.mem_cons_self x [])
      show ((decide (x.e1 < nb.s1) && decide (x.e2 < nb.s2)) && chainOk [nb]) = true
      rw [decide_eq_true hx.1, decide_eq_true hx.2]
      rfl
    | cons y rest2 =>
      have hc' : ((decide (x.e1 < y.s1) && decide (x.e2 < y.s2)) &&
          chainOk (y :: rest2)) = true := hc
      simp only [Bool.and_eq_true, decide_eq_true_eq] at hc'
      have hih := ih nb hc'.2 (fun z hz => hlast z (List.mem_cons.mpr (Or.inr hz)))
      show ((decide (x.e1 < y.s1) && decide (x.e2 < y.s2)) &&
          chainOk ((y :: rest2) ++ [nb])) = true
      rw [decide_eq_true hc'.1.1, decide_eq_true hc'.1.2, hih]
      rfl

/-- Appending a well-formed block beyond all current blocks keeps
`GoodBlocks`. -/
theorem goodBlocks_append {bs : List GapLessBlock} {nb : GapLessBlock}
    (hg : GoodBlocks bs) (hwf : wfBlock nb)
    (hlast : ∀ x ∈ bs, x.e1 < nb.s1 ∧ x.e2 < nb.s2) :
    GoodBlocks (bs ++ [nb]) := by
  constructor
  · intro b hb
    rcases List.mem_append.mp hb with h | h
    · exact hg.1 b h
    · rw [List.mem_singleton] at h
      rw [h]
      exact hwf
  · exact chainOk_append bs nb hg.2 hlast

/-- `getD` after updating the same position. -/
theorem getD_set_self {α : Type} [Inhabited α] {l : List α} {i : Nat}
    (h : i < l.length) (v : α) : (l.set i v).getD i default = v := by
  have h' : i < (l.set i v).length := by rw [List.length_set]; exact h
  rw [getD_eq_get h', List.get_eq_getElem]
  exact List.getElem_set_self h'

/-- `getD` of the element just appended. -/
theorem getD_append_last {α : Type} [Inhabited α] (l : List α) (x : α) :
    (l ++ [x]).getD l.length default = x := by
  have h : l.length < (l ++ [x]).length := by
    rw [List.length_append]
    simp
  rw [getD_eq_get h, List.get_eq_getElem]
  exact List.getElem_concat_length l x l.length rfl h

/-- Inversion of a successful `pure`. -/
theorem pure_ok {α : Type} {a b : α} (h : (pure a : Except Err α) = .ok b) : a = b :=
  Except.ok.inj h

/-- The defaultdict access never touches the pair heap. -/
theorem dictGetDefault_pairs (c : ChainIndex) (k : String) :
    ((dictGetDefault c k).2).pairs = c.pairs := by
  unfold dictGetDefault
  cases lookupName c.seqnames k <;> rfl

/-- One body step preserves the invariant: the appended block is
well-formed (size non-negative) and lies beyond every block of the
current pair, and the advanced cursors lie beyond it in turn (gaps
non-negative). -/
theorem body_step_inv {cidx : ChainIndex} {pid : Nat} {s1 s2 sz n1 n2 : Int}
    (hgood : ∀ pr ∈ cidx.pairs, GoodBlocks pr.blocks)
    (hpid : pid < cidx.pairs.length)
    (hbound : ∀ b ∈ (cidx.pairs.getD pid default).blocks, b.e1 < s1 ∧ b.e2 < s2)
    (hsz : 0 ≤ sz) (hn1 : 0 ≤ n1) (hn2 : 0 ≤ n2) :
    Inv ⟨{ cidx with pairs := appendBlock cidx.pairs pid ⟨s1, s1 + sz, s2, s2 + sz⟩ },
         some (pid, s1 + sz + n1 + 1, s2 + sz + n2 + 1)⟩ := by
  have hmemold : cidx.pairs.getD pid default ∈ cidx.pairs := by
    rw [getD_eq_get hpid]
    exact List.get_mem cidx.pairs pid hpid
  have hgoodnew : GoodBlocks ((cidx.pairs.getD pid default).blocks ++
      [⟨s1, s1 + sz, s2, s2 + sz⟩]) :=
    goodBlocks_append (hgood _ hmemold)
      ⟨show s1 ≤ s1 + sz by omega, show s1 + sz - s1 = s2 + sz - s2 by omega⟩ hbound
  have hupd : (appendBlock cidx.pairs pid ⟨s1, s1 + sz, s2, s2 + sz⟩).getD pid default =
      { cidx.pairs.getD pid default with
        blocks := (cidx.pairs.getD pid default).blocks ++ [⟨s1, s1 + sz, s2, s2 + sz⟩] } := by
    unfold appendBlock
    exact getD_set_self hpid _
  refine ⟨?_, ?_, ?_⟩
  · intro pr hpr
    rcases List.mem_or_eq_of_mem_set hpr with h | h
    · exact hgood pr h
    · rw [h]
      exact hgoodnew
  · show pid < (appendBlock cidx.pairs pid _).length
    unfold appendBlock
    rw [List.length_set]
    exact hpid
  · show ∀ b ∈ ((appendBlock cidx.pairs pid _).getD pid default).blocks, _ ∧ _
    rw [hupd]
    intro b hb
    rcases List.mem_append.mp hb with h | h
    · have := hbound b h
      exact ⟨by omega, by omega⟩
    · rw [List.mem_singleton] at h
      rw [h]
      exact ⟨show s1 + sz < s1 + sz + n1 + 1 by omega,
        show s2 + sz < s2 + sz + n2 + 1 by omega⟩

/-- The invariant holds for any state whose pair heap is the old heap
plus one fresh blockless pair, current at the new address — whatever
the set heap and the dictionary contain. -/
theorem header_step_inv {cidx c : ChainIndex} {pr : SeqPair} {s1v s2v : Int}
    (hgood : ∀ p ∈ cidx.pairs, GoodBlocks p.blocks)
    (hp : c.pairs = cidx.pairs ++ [pr]) (hblocks : pr.blocks = []) :
    Inv ⟨c, some (cidx.pairs.length, s1v, s2v)⟩ := by
  refine ⟨?_, ?_, ?_⟩
  · intro x hx
    rw [hp] at hx
    rcases List.mem_append.mp hx with hm | hm
    · exact hgood x hm
    · rw [List.mem_singleton] at hm
      rw [hm, hblocks]
      exact ⟨fun b hb => absurd hb (List.not_mem_nil b), rfl⟩
  · show cidx.pairs.length < c.pairs.length
    rw [hp, List.length_append]
    simp
  · show ∀ b ∈ (c.pairs.getD cidx.pairs.length default).blocks, _ ∧ _
    rw [hp, getD_append_last, hblocks]
    intro b hb
    exact absurd hb (List.not_mem_nil b)

/-- A successful header step preserves the invariant: the fresh pair
has no blocks yet and becomes the current pair. -/
theorem processHeader_inv {st st' : PState} {toks : List (List Char)}
    (hinv : Inv st) (h : processHeader st toks = .ok st') : Inv st' := by
  unfold processHeader at h
  obtain ⟨nA, h2, h⟩ := bind_ok h
  obtain ⟨nB, h7, h⟩ := bind_ok h
  obtain ⟨sA, h4, h⟩ := bind_ok h
  obtain ⟨sB, h9, h⟩ := bind_ok h
  obtain ⟨t5, h5, h⟩ := bind_ok h
  obtain ⟨s1v, hs1, h⟩ := bind_ok h
  obtain ⟨t10, h10, h⟩ := bind_ok h
  obtain ⟨s2v, hs2, h⟩ := bind_ok h
  rw [← pure_ok h]
  refine @header_step_inv st.cidx _
    { seqname1 := String.mk nA, seqname2 := String.mk nB,
      strand1 := String.mk sA, strand2 := String.mk sB, blocks := [] }
    s1v s2v hinv.1 ?_ rfl
  show (dictGetDefault
      { pairs := st.cidx.pairs ++
          [{ seqname1 := String.mk nA, seqname2 := String.mk nB,
             strand1 := String.mk sA, strand2 := String.mk sB, blocks := [] }],
        sets := st.cidx.sets, seqnames := st.cidx.seqnames }
      (String.mk nA)).2.pairs =
    st.cidx.pairs ++
      [{ seqname1 := String.mk nA, seqname2 := String.mk nB,
         strand1 := String.mk sA, strand2 := String.mk sB, blocks := [] }]
  rw [dictGetDefault_pairs]

/-- One parsing step preserves the invariant when the line's sizes and
gaps are non-negative. -/
theorem processLine_inv {st st' : PState} {line : List Char}
    (hnn : lineNonNeg line = true) (hinv : Inv st)
    (h : processLine st line = .ok st') : Inv st' := by
  unfold processLine at h
  unfold lineNonNeg at hnn
  by_cases hempty : line = []
  · rw [if_pos hempty] at h
    exact Except.noConfusion h
  rw [if_neg hempty] at h hnn
  by_cases hskip : line.headD ' ' = '#' ∨ pyRstrip line = []
  · rw [if_pos hskip] at h
    rw [← pure_ok h]
    exact hinv
  rw [if_neg hskip] at h hnn
  by_cases hchain : pyStartsChain line
  · rw [if_pos hchain] at h
    exact processHeader_inv hinv h
  rw [if_neg hchain] at h hnn
  rcases htoks : pySplit line with _ | ⟨a, _ | ⟨b, _ | ⟨c, _ | ⟨d, rest⟩⟩⟩⟩ <;>
    rw [htoks] at h hnn <;>
    unfold processBody at h
  · obtain ⟨sz, hsz, h⟩ := bind_ok h
    cases hcur : st.cur with
    | none => rw [hcur] at h; exact Except.noConfusion h
    | some t =>
      obtain ⟨pid, s1, s2⟩ := t
      rw [hcur] at h
      rw [← pure_ok h]
      have hcu := hinv.2
      rw [hcur] at hcu
      exact body_step_inv hinv.1 hcu.1 hcu.2 (exceptNonNeg_ok hnn hsz)
        (le_refl 0) (le_refl 0)
  · obtain ⟨sz, hsz, h⟩ := bind_ok h
    cases hcur : st.cur with
    | none => rw [hcur] at h; exact Except.noConfusion h
    | some t =>
      obtain ⟨pid, s1, s2⟩ := t
      rw [hcur] at h
      rw [← pure_ok h]
      have hcu := hinv.2
      rw [hcur] at hcu
      exact body_step_inv hinv.1 hcu.1 hcu.2 (exceptNonNeg_ok hnn hsz)
        (le_refl 0) (le_refl 0)
  · obtain ⟨sz, hsz, h⟩ := bind_ok h
    cases hcur : st.cur with
    | none => rw [hcur] at h; exact Except.noConfusion h
    | some t =>
      obtain ⟨pid, s1, s2⟩ := t
      rw [hcur] at h
      rw [← pure_ok h]
      have hcu := hinv.2
      rw [hcur] at hcu
      exact body_step_inv hinv.1 hcu.1 hcu.2 (exceptNonNeg_ok hnn hsz)
        (le_refl 0) (le_refl 0)
  · have hnn3 : (exceptNonNeg (pyInt a) && exceptNonNeg (pyInt b) &&
        exceptNonNeg (pyInt c)) = true := hnn
    simp only [Bool.and_eq_true] at hnn3
    obtain ⟨sz, hsz, h⟩ := bind_ok h
    cases hcur : st.cur with
    | none => rw [hcur] at h; exact Except.noConfusion h
    | some t =>
      obtain ⟨pid, s1, s2⟩ := t
      rw [hcur] at h
      obtain ⟨n1, hn1, h⟩ := bind_ok h
      obtain ⟨n2, hn2, h⟩ := bind_ok h
      rw [← pure_ok h]
      have hcu := hinv.2
      rw [hcur] at hcu
      exact body_step_inv hinv.1 hcu.1 hcu.2 (exceptNonNeg_ok hnn3.1.1 hsz)
        (exceptNonNeg_ok hnn3.1.2 hn1) (exceptNonNeg_ok hnn3.2 hn2)
  · obtain ⟨sz, hsz, h⟩ := bind_ok h
    cases hcur : st.cur with
    | none => rw [hcur] at h; exact Except.noConfusion h
    | some t =>
      obtain ⟨pid, s1, s2⟩ := t
      rw [hcur] at h
      rw [← pure_ok h]
      have hcu := hinv.2
      rw [hcur] at hcu
      exact body_step_inv hinv.1 hcu.1 hcu.2 (exceptNonNeg_ok hnn hsz)
        (le_refl 0) (le_refl 0)

/-- The parsing loop preserves the invariant over any list of
non-negative lines. -/
theorem runLines_inv : ∀ (ls : List (List Char)) (st st' : PState),
    Inv st → (∀ l ∈ ls, lineNonNeg l = true) →
    runLines st ls = .ok st' → Inv st' := by
  intro ls
  induction ls with
  | nil =>
    intro st st' hinv _ h
    unfold runLines at h
    rw [← Except.ok.inj h]
    exact hinv
  | cons l ls ih =>
    intro st st' hinv hnn h
    unfold runLines at h
    cases hp : processLine st l with
    | error e => rw [hp] at h; exact Except.noConfusion h
    | ok st1 =>
      rw [hp] at h
      exact ih st1 st'
        (processLine_inv (hnn l (List.mem_cons_self l ls)) hinv hp)
        (fun x hx => hnn x (List.mem_cons.mpr (Or.inr hx))) h

/-- Every pair of an index built from non-negative input has good
blocks. -/
theorem construct_good {lines : List String} {cidx : ChainIndex}
    (hnn : ∀ l ∈ lines, lineNonNeg l.toList = true)
    (hok : construct_from_chain_file lines = .ok cidx) :
    ∀ pr ∈ cidx.pairs, GoodBlocks pr.blocks := by
  unfold construct_from_chain_file at hok
  cases hr : runLines ⟨⟨[], [], []⟩, none⟩ (lines.map String.toList) with
  | error e => rw [hr] at hok; exact Except.noConfusion hok
  | ok st =>
    rw [hr] at hok
    have hok2 : st.cidx = cidx := Except.ok.inj hok
    have hinv0 : Inv ⟨⟨[], [], []⟩, none⟩ :=
      ⟨fun pr hpr => absurd hpr (List.not_mem_nil pr), trivial⟩
    have hnn' : ∀ l ∈ lines.map String.toList, lineNonNeg l = true := by
      intro l hl
      obtain ⟨x, hx, hxl⟩ := List.mem_map.mp hl
      rw [← hxl]
      exact hnn x hx
    have hfin := runLines_inv _ _ _ hinv0 hnn' hr
    rw [← hok2]
    exact hfin.1

/-- C8: when every body-line size and gap of the input is a
non-negative integer, every block of every pair of the resulting
index is gapless (`e1 - s1 = e2 - s2`), and the blocks of each pair —
stored in parse order — have strictly increasing `s1` and `e1` and do
not overlap on the first genome (`e1 < ` next `s1`). -/
theorem C8_blocks_invariant (lines : List String) (cidx : ChainIndex)
    (hnn : ∀ l ∈ lines, lineNonNeg l.toList = true)
    (hok : construct_from_chain_file lines = .ok cidx) :
    ∀ pr ∈ cidx.pairs,
      (∀ b ∈ pr.blocks, b.e1 - b.s1 = b.e2 - b.s2) ∧
      pr.blocks.Chain' (fun a b => a.s1 < b.s1 ∧ a.e1 < b.e1 ∧ a.e1 < b.s1) := by
  intro pr hpr
  have hg := construct_good hnn hok pr hpr
  refine ⟨fun b hb => (hg.1 b hb).2, ?_⟩
  rw [List.chain'_iff_get]
  intro i hi
  have hlink := chainOk_link hg.2 i (by omega)
  have hwfi : wfBlock (pr.blocks.getD i default) := by
    have hm : pr.blocks.getD i default ∈ pr.blocks := by
      rw [getD_eq_get (by omega : i < pr.blocks.length)]
      exact List.get_mem pr.blocks i (by omega)
    exact hg.1 _ hm
  have hwfj : wfBlock (pr.blocks.getD (i + 1) default) := by
    have hm : pr.blocks.getD (i + 1) default ∈ pr.blocks := by
      rw [getD_eq_get (by omega : i + 1 < pr.blocks.length)]
      exact List.get_mem pr.blocks (i + 1) (by omega)
    exact hg.1 _ hm
  rw [← getD_eq_get (by omega : i < pr.blocks.length),
    ← getD_eq_get (by omega : i + 1 < pr.blocks.length)]
  unfold wfBlock at hwfi hwfj
  exact ⟨by omega, by omega, by omega⟩

/-- C8 witness: the invariant on the index of the gap example. -/
theorem C8_blocks_invariant_witness :
    (∀ b ∈ pair6.blocks, b.e1 - b.s1 = b.e2 - b.s2) ∧
    pair6.blocks.Chain' (fun a b => a.s1 < b.s1 ∧ a.e1 < b.e1 ∧ a.e1 < b.s1) :=
  C8_blocks_invariant lines6 (singlePairIndex pair6) (by decide) rfl pair6
    (List.mem_singleton.mpr rfl)

/-- C10: in an index built from a single chain with non-negative
sizes and gaps, querying the B-side name at exactly the `e2` of any
block returns absent: the upper-bound search skips the block whose
`e2` equals the position, and the following block (if any) starts
strictly beyond it. -/
theorem C10_b_end_absent (lines : List String) (pair : SeqPair)
    (hnn : ∀ l ∈ lines, lineNonNeg l.toList = true)
    (hok : construct_from_chain_file lines = .ok (singlePairIndex pair))
    (hne : pair.seqname1 ≠ pair.seqname2)
    {b : GapLessBlock} (hb : b ∈ pair.blocks) :
    liftoverRun (singlePairIndex pair) pair.seqname2 b.e2 = .ok none := by
  have hgood : GoodBlocks pair.blocks :=
    construct_good hnn hok pair (List.mem_singleton.mpr rfl)
  obtain ⟨⟨k, hk⟩, hbk⟩ := List.mem_iff_get.mp hb
  have hbd : pair.blocks.getD k default = b := by rw [getD_eq_get hk, hbk]
  have hbr : bisect_right pair.blocks b.e2 = k + 1 := by
    have := bisect_right_at_e2 hgood hk
    rwa [hbd] at this
  rw [liftoverRun_single pair _ _ (Or.inr ⟨hne, rfl⟩), liftoverLoop_single,
    if_neg (Ne.symm hne), if_pos rfl, hbr]
  rcases Nat.lt_or_ge (k + 1) pair.blocks.length with hlen | hlen
  · rw [if_neg (by omega)]
    have hrel := good_rel hgood (k + 1) hlen k (by omega)
    rw [hbd] at hrel
    have hcov : ¬((pair.blocks.getD (k + 1) default).s2 ≤ b.e2 ∧
        b.e2 ≤ (pair.blocks.getD (k + 1) default).e2) := by
      intro hc
      omega
    rw [if_neg hcov]
  · rw [if_pos hlen]

/-- C10 witness: on the one-block example index, querying `chr2` at
`e2 = 100` returns absent. -/
theorem C10_b_end_absent_witness :
    liftoverRun (singlePairIndex pair7) "chr2" 100 = .ok none :=
  C10_b_end_absent lines7 pair7 (by decide) rfl (by decide)
    (b := ⟨0, 100, 0, 100⟩) (List.mem_singleton.mpr rfl)

end Liftover
